import Mathlib

/-!
Shallow embedding of `src/include/freelist.h` (template class `freelist_t<T>`),
a fixed-capacity generational-handle object pool, together with proofs about
the claims of the specification.

Modelling conventions:
* `uint32_t` / `uint16_t` / `size_t` become `Nat`, with `% 2^32` (`U32`) and
  `% 2^16` (`U16`) written exactly where the C++ performs wrapping arithmetic
  or a narrowing cast.
* The raw object buffer `_objects` and the mirror `_object_ids` are modelled
  as dense lists of length `_num_objects`: only positions `[0, _num_objects)`
  hold constructed objects / meaningful ids in the C++ code.
* An array access whose index may be out of bounds in the C++ code is
  modelled with `List.getElem?`; `none` marks the out-of-bounds (undefined
  behaviour) case.
* `new index_t[n]` default-initializes the records, so the `index` field of
  every slot is indeterminate after construction (the constructor loop writes
  only `id` and `next`).  The constructor model therefore takes a function
  `junk` supplying those indeterminate `uint16_t` values.
-/

namespace FreelistSpec

/-- Bit width constant: `2^16`, the modulus of `uint16_t` arithmetic and of
the `id & index_mask` operation (`index_mask = 0xFFFF`). -/
def U16 : Nat := 65536

/-- Bit width constant: `2^32`, the modulus of `uint32_t` arithmetic. -/
def U32 : Nat := 4294967296

/-- Reserved sentinel for the `index` field of a free slot
(`static const uint16_t tombstone = 0xFFFF`). -/
def tombstone : Nat := 65535

/-- Generation increment (`static const uint32_t new_object_id_add = 0x10000`). -/
def new_object_id_add : Nat := 65536

/-- Slot record `index_t`: generation-tagged `id`, dense position `index`
(or `tombstone` when the slot is free), and free-list link `next`. -/
structure index_t where
  id : Nat
  index : Nat
  next : Nat
deriving DecidableEq, Repr

/-- State of a `freelist_t<T>`.  `objects` and `object_ids` model the dense
prefixes `[0, _num_objects)` of the buffers `_objects` and `_object_ids`;
`indices` models the whole slot table `_indices` (length `_max_objects`). -/
structure freelist_t (α : Type) where
  num_objects : Nat
  max_objects : Nat
  objects : List α
  object_ids : List Nat
  indices : List index_t
  enqueue : Nat
deriving DecidableEq, Repr

variable {α : Type}

/-- Slot index encoded in the low 16 bits of a handle: `id & index_mask`. -/
def slotIdx (id : Nat) : Nat := id % U16

/-- Dummy record used as the (never relevant) default of in-bounds reads. -/
def dummyIdx : index_t := ⟨0, 0, 0⟩

/-- Slot-table read `_indices[s]` for an index known to be in bounds. -/
def slotAt (st : freelist_t α) (s : Nat) : index_t := st.indices.getD s dummyIdx

/-- Condition of the constructor's capacity assertion
`assert(max_objects < 0xFFFF);`. -/
def ctor_assert (max_objects : Nat) : Bool := decide (max_objects < 65535)

/-- Constructor `freelist_t(size_t max_objects)`.  The loop writes
`_indices[i].id = (uint32_t)i` and `_indices[i].next = (uint16_t)(i + 1)`
but never writes `_indices[i].index`: `new index_t[max_objects]`
default-initializes the array, leaving that `uint16_t` field indeterminate.
The indeterminate contents are supplied by `junk` (reduced mod `U16` to
respect the field's type). -/
def freelist_mk (α : Type) (max_objects : Nat) (junk : Nat → Nat) : freelist_t α :=
  { num_objects := 0
    max_objects := max_objects
    objects := []
    object_ids := []
    indices := (List.range max_objects).map
      (fun i => { id := i, index := junk i % U16, next := (i + 1) % U16 })
    enqueue := 0 }

/-- The benign instantiation of the indeterminate constructor bytes: every
slot starts with `index = tombstone`, which is the initialization the
documented invariants require (the source omits it; see the C2 analysis). -/
def benign : Nat → Nat := fun _ => tombstone

/-- Default constructor `freelist_t()`: empty, capacity zero. -/
def freelist_default (α : Type) : freelist_t α :=
  { num_objects := 0, max_objects := 0, objects := [], object_ids := []
    indices := [], enqueue := 0 }

/-- `bool contains(uint32_t id) const`:
`index_t& in = _indices[id & index_mask]; return in.id == id && in.index != tombstone;`.
The slot-table access has no bounds check; `none` models the out-of-bounds
read when `id & index_mask >= _max_objects`. -/
def contains (st : freelist_t α) (id : Nat) : Option Bool :=
  (st.indices[slotIdx id]?).map (fun in0 => (in0.id == id) && (in0.index != tombstone))

/-- `T& operator[](uint32_t id) const` (the spec's `lookup`):
`return *(_objects + (_indices[id & index_mask].index));`.  `none` models an
out-of-bounds access. -/
def lookup (st : freelist_t α) (id : Nat) : Option α :=
  (st.indices[slotIdx id]?).bind (fun in0 => st.objects[in0.index]?)

/-- Write to a dense buffer position: positions `< length` are overwritten,
the position one past the end (a not-yet-constructed buffer cell in the C++
arrays) extends the dense prefix, anything further is out of bounds and
modelled as a no-op (it is never reached in the proofs). -/
def dwrite {β : Type} (l : List β) (i : Nat) (v : β) : List β :=
  if i < l.length then l.set i v else if i = l.length then l ++ [v] else l

/-- In-place update of one slot record; out of bounds is a no-op. -/
def modifyAt (l : List index_t) (i : Nat) (f : index_t → index_t) : List index_t :=
  match l[i]? with
  | some e => l.set i (f e)
  | none => l

/-- Condition of the assertion at the top of `insert_alloc`:
`assert(_num_objects <= _max_objects);` — note `<=`, not `<`. -/
def insert_alloc_assert (st : freelist_t α) : Bool :=
  decide (st.num_objects ≤ st.max_objects)

/-- `index_t* insert_alloc()`:
pops the free-list head `_enqueue`, bumps the slot's generation id by
`new_object_id_add` (mod `2^32`), stores the new dense position
`(uint16_t)_num_objects++` in it, and mirrors the id at that dense position.
`none` models the out-of-bounds read `_indices[_enqueue]` (which the `<=`
assertion fails to prevent at full capacity). -/
def insert_alloc (st : freelist_t α) : Option (index_t × freelist_t α) :=
  match st.indices[st.enqueue]? with
  | none => none
  | some in0 =>
    let id1 := (in0.id + new_object_id_add) % U32
    let idx1 := st.num_objects % U16
    let in1 : index_t := { id := id1, index := idx1, next := in0.next }
    some (in1,
      { st with
        indices := st.indices.set st.enqueue in1
        enqueue := in0.next
        object_ids := dwrite st.object_ids idx1 id1
        num_objects := st.num_objects + 1 })

/-- Common state effect of `insert` and `emplace`: `insert_alloc` followed by
constructing the value at `_objects + in->index`. -/
def insertOp (st : freelist_t α) (v : α) : Option (index_t × freelist_t α) :=
  (insert_alloc st).map (fun p => (p.1, { p.2 with objects := dwrite p.2.objects p.1.index v }))

/-- `uint32_t insert(const T& val)`:
after `new (o) T(val)` it executes `return o->id;` where `o` points at the
freshly constructed COPY OF `val` in the object buffer — so the returned
"handle" is the `id` member of the stored value (which requires `T` to have
such a member), not the slot record's id.  The member access `o->id` is
modelled by the projection `idf`. -/
def insert (idf : α → Nat) (st : freelist_t α) (v : α) : Option (Nat × freelist_t α) :=
  (insertOp st v).map (fun p => (idf v, p.2))

/-- `uint32_t emplace(Args&&... args)`: same state effect as `insert`, but
returns `in->id`, the slot record's generation-tagged id. -/
def emplace (st : freelist_t α) (v : α) : Option (Nat × freelist_t α) :=
  (insertOp st v).map (fun p => (p.1.id, p.2))

/-- `void erase(uint32_t id)`, in source order:
decrement the count, move the last dense object into the erased position,
mirror the moved handle, destroy the trailing object, repoint the moved
handle's slot at the vacated position, tombstone the erased slot and push it
onto the free-list head.  The `assert(contains(id))` precondition appears as
a hypothesis of the theorems. -/
def erase [Inhabited α] (st : freelist_t α) (id : Nat) : freelist_t α :=
  let s := slotIdx id
  let in0 := slotAt st s
  let p := in0.index
  let num1 := st.num_objects - 1
  let lastVal := st.objects.getD num1 default
  let objects1 := (st.objects.set p lastVal).take num1
  let lastId := st.object_ids.getD num1 0
  let object_ids1 := (st.object_ids.set p lastId).take num1
  let indices1 := modifyAt st.indices (slotIdx lastId) (fun e => { e with index := p })
  let indices2 := modifyAt indices1 s
    (fun e => { e with index := tombstone, next := st.enqueue })
  { st with
    num_objects := num1
    objects := objects1
    object_ids := object_ids1
    indices := indices2
    enqueue := s }

/-- Iteration from `begin()` to `end()`: the iterator walks `_object_ids`
from `_object_ids` to `_object_ids + _num_objects`, yielding the dense handle
mirror in storage order. -/
def iterate (st : freelist_t α) : List Nat := st.object_ids.take st.num_objects

/-- `void swap(freelist_t& other)`: exchanges the complete states.  The
result is the pair (new `this`, new `other`). -/
def swapFl (a b : freelist_t α) : freelist_t α × freelist_t α := (b, a)

/-- Move constructor `freelist_t(freelist_t&&)`: default-constructs `this`
and swaps with the source.  Result: (constructed pool, state left in the
source). -/
def move_ctor (src : freelist_t α) : freelist_t α × freelist_t α :=
  swapFl (freelist_default α) src

/-- Move assignment `operator=(freelist_t&&)` for distinct operands: a plain
`swap(other)`.  Result: (new destination, state left in the source). -/
def move_assign (dst src : freelist_t α) : freelist_t α × freelist_t α :=
  swapFl dst src

/-- Value type with an `id` member, as `freelist_t<T>::insert`'s
`return o->id;` requires of `T`. -/
structure valWithId where
  id : Nat
  payload : Nat
deriving DecidableEq, Repr

instance : Inhabited valWithId := ⟨⟨0, 0⟩⟩

/-- The free list followed from pointer `e`: `Chain st e L` holds when
successively following the `next` fields from `e` visits exactly the slots in
`L` and then reaches the terminal pointer `max_objects` (the value the
constructor leaves in the last slot's `next`). -/
inductive Chain (st : freelist_t α) : Nat → List Nat → Prop where
  | nil : Chain st st.max_objects []
  | cons {s : Nat} {L : List Nat} : s < st.max_objects →
      Chain st (slotAt st s).next L → Chain st s (s :: L)

/-- The structural invariants of the pool (the §3 invariants of the spec,
as they apply to the embedded state). -/
structure Wf (st : freelist_t α) : Prop where
  lenObjects : st.objects.length = st.num_objects
  lenIds : st.object_ids.length = st.num_objects
  lenIndices : st.indices.length = st.max_objects
  numLe : st.num_objects ≤ st.max_objects
  maxLt : st.max_objects < 65535
  slotLow : ∀ s, s < st.max_objects →
      slotIdx (slotAt st s).id = s ∧ (slotAt st s).id < U32
  occ : ∀ s, s < st.max_objects → (slotAt st s).index ≠ tombstone →
      (slotAt st s).index < st.num_objects ∧
      st.object_ids.getD (slotAt st s).index 0 = (slotAt st s).id
  dense : ∀ p, p < st.num_objects →
      slotIdx (st.object_ids.getD p 0) < st.max_objects ∧
      (slotAt st (slotIdx (st.object_ids.getD p 0))).index = p ∧
      (slotAt st (slotIdx (st.object_ids.getD p 0))).id = st.object_ids.getD p 0
  chain : ∃ L, Chain st st.enqueue L ∧ L.Nodup ∧
      L.length = st.max_objects - st.num_objects ∧
      ∀ s, s < st.max_objects → ((slotAt st s).index = tombstone ↔ s ∈ L)

/-- One defined-behaviour API step: an insertion below capacity (any value,
covering both `insert` and `emplace`, whose state effect is the same), or an
erase of a handle that `contains` accepts. -/
inductive Step [Inhabited α] : freelist_t α → freelist_t α → Prop where
  | insertStep {st st' : freelist_t α} {in1 : index_t} {v : α} :
      st.num_objects < st.max_objects → insertOp st v = some (in1, st') →
      Step st st'
  | eraseStep {st : freelist_t α} {h : Nat} :
      contains st h = some true → Step st (erase st h)

/-- Reachability: states produced from a freshly constructed pool of
capacity `C` (passing the constructor's assertion) by in-capacity inserts
and valid erases.  The indeterminate `index` bytes of the constructor are
taken as `tombstone` — the initialization the documented invariants demand
of a fresh pool (see the C2 analysis for the consequences of the source
leaving them indeterminate). -/
def Reachable [Inhabited α] (C : Nat) (st : freelist_t α) : Prop :=
  C < 65535 ∧ Relation.ReflTransGen Step (freelist_mk α C benign) st

/-- Step sequences instrumented with the number of times the free-list pop
in `insert_alloc` claimed slot `s` (each such pop bumps that slot's
generation id by `new_object_id_add`). -/
inductive StepsB [Inhabited α] (s : Nat) : freelist_t α → Nat → freelist_t α → Prop where
  | refl (st : freelist_t α) : StepsB s st 0 st
  | insertStep {st0 : freelist_t α} {b : Nat} {st st' : freelist_t α} {in1 : index_t} {v : α} :
      StepsB s st0 b st → st.num_objects < st.max_objects →
      insertOp st v = some (in1, st') →
      StepsB s st0 (b + if st.enqueue = s then 1 else 0) st'
  | eraseStep {st0 : freelist_t α} {b : Nat} {st : freelist_t α} {h : Nat} :
      StepsB s st0 b st → contains st h = some true →
      StepsB s st0 b (erase st h)

/-- Capacity-1 pool holding one object: the state after one `emplace` on a
freshly constructed (benign) pool of capacity 1.  Its handle is `0x10000`. -/
def fullPool : freelist_t Unit :=
  { num_objects := 1, max_objects := 1, objects := [()], object_ids := [65536]
    indices := [⟨65536, 0, 1⟩], enqueue := 1 }

/-- Capacity-1 pool whose single slot is free with generation-tagged id `v`
(and `next` pointing at the terminal value 1): the shape reached after
erasing the single occupant. -/
def freeSlotPool (v : Nat) : freelist_t Unit :=
  { num_objects := 0, max_objects := 1, objects := [], object_ids := []
    indices := [⟨v, 65535, 1⟩], enqueue := 0 }

/-- Insert/erase cycles on the capacity-1 pool, starting from the state in
which handle `0x10000` has just been erased: each cycle re-inserts into the
freed slot (bumping its id by `0x10000` mod `2^32`) and erases the new
occupant again. -/
def cyc : Nat → freelist_t Unit
  | 0 => freeSlotPool 65536
  | k + 1 =>
    match insertOp (cyc k) () with
    | some p => erase p.2 p.1.id
    | none => cyc k

/-- Capacity-2 pool holding the values 10 and 20 (inserted in that order on
a freshly constructed benign pool): handles `0x10000` (dense position 0) and
`0x10001` (dense position 1). -/
def stAB : freelist_t Nat :=
  { num_objects := 2, max_objects := 2, objects := [10, 20]
    object_ids := [65536, 65537]
    indices := [⟨65536, 0, 1⟩, ⟨65537, 1, 2⟩], enqueue := 2 }

/-- Generation-tagged id handed out by the next `insert_alloc`: the free-list
head's id bumped by `new_object_id_add`, mod `2^32`. -/
def bumpId (st : freelist_t α) : Nat :=
  ((slotAt st st.enqueue).id + new_object_id_add) % U32

/-- Explicit form of the state produced by a successful `insert`/`emplace`
of `v` on a well-formed, non-full pool (see `insertOp_eq`). -/
def postInsert (st : freelist_t α) (v : α) : freelist_t α :=
  { st with
    indices := st.indices.set st.enqueue
      ⟨bumpId st, st.num_objects, (slotAt st st.enqueue).next⟩
    enqueue := (slotAt st st.enqueue).next
    object_ids := st.object_ids ++ [bumpId st]
    objects := st.objects ++ [v]
    num_objects := st.num_objects + 1 }

section ListHelpers

variable {β : Type}

theorem getD_set_self {l : List β} {i : Nat} (h : i < l.length) (v d : β) :
    (l.set i v).getD i d = v := by
  simp [List.getD_eq_getElem?_getD, List.getElem?_set_self h]

theorem getD_set_ne {l : List β} {i j : Nat} (h : i ≠ j) (v d : β) :
    (l.set i v).getD j d = l.getD j d := by
  simp [List.getD_eq_getElem?_getD, List.getElem?_set_ne h]

theorem getD_append_left {l : List β} {i : Nat} (h : i < l.length) (x d : β) :
    (l ++ [x]).getD i d = l.getD i d := by
  simp [List.getD_eq_getElem?_getD, List.getElem?_append_left h]

theorem getD_append_last (l : List β) (x d : β) :
    (l ++ [x]).getD l.length d = x := by
  simp [List.getD_eq_getElem?_getD]

theorem getD_take {l : List β} {n i : Nat} (h : i < n) (d : β) :
    (l.take n).getD i d = l.getD i d := by
  simp [List.getD_eq_getElem?_getD, List.getElem?_take_of_lt h]

theorem getD_of_lt {l : List β} {i : Nat} (h : i < l.length) (d : β) :
    l.getD i d = l[i] := by
  simp [List.getD_eq_getElem?_getD, List.getElem?_eq_getElem h]

theorem dwrite_eq_append {l : List β} {i : Nat} (h : i = l.length) (v : β) :
    dwrite l i v = l ++ [v] := by
  simp [dwrite, h]

theorem length_modifyAt (l : List index_t) (i : Nat) (f : index_t → index_t) :
    (modifyAt l i f).length = l.length := by
  unfold modifyAt
  cases h : l[i]? <;> simp

theorem modifyAt_of_lt {l : List index_t} {i : Nat} (h : i < l.length)
    (f : index_t → index_t) :
    modifyAt l i f = l.set i (f (l.getD i dummyIdx)) := by
  unfold modifyAt
  rw [List.getElem?_eq_getElem h, getD_of_lt h]

theorem getD_modifyAt_self {l : List index_t} {i : Nat} (h : i < l.length)
    (f : index_t → index_t) :
    (modifyAt l i f).getD i dummyIdx = f (l.getD i dummyIdx) := by
  rw [modifyAt_of_lt h, getD_set_self (by simpa using h)]

theorem getD_modifyAt_ne {l : List index_t} {i j : Nat} (h : i ≠ j)
    (f : index_t → index_t) :
    (modifyAt l i f).getD j dummyIdx = l.getD j dummyIdx := by
  unfold modifyAt
  cases he : l[i]? with
  | none => rfl
  | some e => exact getD_set_ne h _ _

end ListHelpers

section BasicFacts

theorem U16_dvd_U32 : U16 ∣ U32 := ⟨65536, rfl⟩

theorem slotIdx_bump (x : Nat) :
    slotIdx ((x + new_object_id_add) % U32) = slotIdx x := by
  unfold slotIdx new_object_id_add
  rw [Nat.mod_mod_of_dvd _ U16_dvd_U32]
  exact Nat.add_mod_right x U16

theorem slotAt_getElem? {st : freelist_t α} {s : Nat} (h : s < st.indices.length) :
    st.indices[s]? = some (slotAt st s) := by
  rw [List.getElem?_eq_getElem h, slotAt, getD_of_lt h]

/-- Unfolding of a successful `contains` test. -/
theorem contains_some_true {st : freelist_t α} {h : Nat}
    (hc : contains st h = some true) :
    slotIdx h < st.indices.length ∧ (slotAt st (slotIdx h)).id = h ∧
    (slotAt st (slotIdx h)).index ≠ tombstone := by
  unfold contains at hc
  cases hg : st.indices[slotIdx h]? with
  | none => rw [hg] at hc; exact absurd hc (by simp)
  | some in0 =>
    rw [hg] at hc
    have hc2 : ((in0.id == h) && (in0.index != tombstone)) = true := by
      simpa using hc
    have hlt : slotIdx h < st.indices.length := by
      by_contra hge
      rw [List.getElem?_eq_none (by omega)] at hg
      exact absurd hg (by simp)
    have : in0 = slotAt st (slotIdx h) := by
      have := slotAt_getElem? hlt
      rw [hg] at this
      exact (Option.some.injEq _ _).mp this
    subst this
    rcases Bool.and_eq_true_iff.mp hc2 with ⟨h1, h2⟩
    refine ⟨hlt, by simpa using h1, by simpa using h2⟩

/-- Conversely, a matching occupied slot makes `contains` answer `true`. -/
theorem contains_eq_some_true {st : freelist_t α} {h : Nat}
    (hlt : slotIdx h < st.indices.length)
    (hid : (slotAt st (slotIdx h)).id = h)
    (hocc : (slotAt st (slotIdx h)).index ≠ tombstone) :
    contains st h = some true := by
  unfold contains
  rw [slotAt_getElem? hlt]
  simp [hid, hocc]

end BasicFacts

section InsertLemmas

/-- Computation of a successful `insert_alloc` on a state whose free-list
head is in bounds. -/
theorem insert_alloc_eq {st : freelist_t α}
    (he : st.enqueue < st.indices.length)
    (hids : st.object_ids.length = st.num_objects)
    (hnum : st.num_objects < U16) :
    insert_alloc st =
      some (⟨bumpId st, st.num_objects, (slotAt st st.enqueue).next⟩,
        { st with
          indices := st.indices.set st.enqueue
            ⟨bumpId st, st.num_objects, (slotAt st st.enqueue).next⟩
          enqueue := (slotAt st st.enqueue).next
          object_ids := st.object_ids ++ [bumpId st]
          num_objects := st.num_objects + 1 }) := by
  unfold insert_alloc
  rw [slotAt_getElem? he]
  have h1 : st.num_objects % U16 = st.num_objects := Nat.mod_eq_of_lt hnum
  simp only [bumpId, h1]
  rw [dwrite_eq_append hids.symm]

/-- Computation of a successful `insert`/`emplace` state effect. -/
theorem insertOp_eq {st : freelist_t α} (v : α)
    (he : st.enqueue < st.indices.length)
    (hids : st.object_ids.length = st.num_objects)
    (hobj : st.objects.length = st.num_objects)
    (hnum : st.num_objects < U16) :
    insertOp st v =
      some (⟨bumpId st, st.num_objects, (slotAt st st.enqueue).next⟩,
        postInsert st v) := by
  unfold insertOp
  rw [insert_alloc_eq he hids hnum]
  have h3 : dwrite st.objects st.num_objects v = st.objects ++ [v] :=
    dwrite_eq_append hobj.symm _
  simp only [Option.map, postInsert, h3]

end InsertLemmas

section ChainLemmas

/-- The free-list chain only looks at the slot records of its members (and
the capacity), so it is stable under any state change that preserves
those. -/
theorem Chain_congr {st st' : freelist_t α} {x : Nat} {L : List Nat}
    (hch : Chain st x L) (hmax : st'.max_objects = st.max_objects) :
    (∀ s ∈ L, slotAt st' s = slotAt st s) → Chain st' x L := by
  induction hch with
  | nil => intro _; exact hmax ▸ Chain.nil
  | @cons s L hs _ ih =>
    intro hslots
    refine Chain.cons (by omega) ?_
    rw [hslots s (List.mem_cons_self s L)]
    exact ih (fun t ht => hslots t (List.mem_cons_of_mem _ ht))

/-- Every member of a free-list chain is a valid slot index. -/
theorem Chain_mem_lt {st : freelist_t α} {x : Nat} {L : List Nat}
    (hch : Chain st x L) : ∀ s ∈ L, s < st.max_objects := by
  induction hch with
  | nil => intro s hs; cases hs
  | @cons s L hs _ ih =>
    intro t ht
    rcases List.mem_cons.mp ht with h | h
    · omega
    · exact ih t h

/-- On a well-formed, non-full pool the free list is nonempty: its head
`_enqueue` is an in-range free slot, and the tail is the chain of the
remaining free slots. -/
theorem enqueue_head {st : freelist_t α} (hwf : Wf st)
    (hlt : st.num_objects < st.max_objects) :
    st.enqueue < st.max_objects ∧ (slotAt st st.enqueue).index = tombstone ∧
    ∃ L', Chain st (slotAt st st.enqueue).next L' ∧ (st.enqueue :: L').Nodup ∧
      L'.length + 1 = st.max_objects - st.num_objects ∧
      (∀ s, s < st.max_objects →
        ((slotAt st s).index = tombstone ↔ s ∈ st.enqueue :: L')) := by
  obtain ⟨L, hch, hnd, hlen, hcov⟩ := hwf.chain
  generalize hq : st.enqueue = q at hch
  cases hch with
  | nil =>
    exfalso
    simp only [List.length_nil] at hlen
    omega
  | @cons s L' hs hc =>
    subst hq
    have hfree : (slotAt st st.enqueue).index = tombstone :=
      (hcov st.enqueue hs).mpr (List.mem_cons_self _ _)
    refine ⟨hs, hfree, L', hc, hnd, ?_, hcov⟩
    simp only [List.length_cons] at hlen
    omega

end ChainLemmas

section WfPreservation

/-- Inserting below capacity preserves every structural invariant. -/
theorem Wf_postInsert {st : freelist_t α} (v : α) (hwf : Wf st)
    (hlt : st.num_objects < st.max_objects) : Wf (postInsert st v) := by
  obtain ⟨he, hfree, L', hchain', hnd, hlen, hcov⟩ := enqueue_head hwf hlt
  have hml : st.max_objects < 65535 := hwf.maxLt
  have hnle : st.num_objects ≤ st.max_objects := hwf.numLe
  have hlenIds : st.object_ids.length = st.num_objects := hwf.lenIds
  have htomb : tombstone = 65535 := rfl
  have hleni : st.indices.length = st.max_objects := hwf.lenIndices
  have he' : st.enqueue < st.indices.length := by omega
  have hmax : (postInsert st v).max_objects = st.max_objects := rfl
  have hnum : (postInsert st v).num_objects = st.num_objects + 1 := rfl
  have henq : (postInsert st v).enqueue = (slotAt st st.enqueue).next := rfl
  have hse : slotAt (postInsert st v) st.enqueue =
      ⟨bumpId st, st.num_objects, (slotAt st st.enqueue).next⟩ :=
    getD_set_self he' _ _
  have hsne : ∀ t, t ≠ st.enqueue → slotAt (postInsert st v) t = slotAt st t :=
    fun t ht => getD_set_ne (fun hh => ht hh.symm) _ _
  have hids : (postInsert st v).object_ids = st.object_ids ++ [bumpId st] := rfl
  have hobjs : (postInsert st v).objects = st.objects ++ [v] := rfl
  have hgetlast : (st.object_ids ++ [bumpId st]).getD st.num_objects 0 = bumpId st := by
    rw [← hwf.lenIds]; exact getD_append_last _ _ _
  have hslotIdx_bump : slotIdx (bumpId st) = st.enqueue := by
    rw [bumpId, slotIdx_bump]
    exact (hwf.slotLow st.enqueue he).1
  refine ⟨?_, ?_, ?_, ?_, ?_, ?_, ?_, ?_, ?_⟩
  · simp [hobjs, hnum, hwf.lenObjects]
  · simp [hids, hnum, hwf.lenIds]
  · simp [postInsert, hwf.lenIndices]
  · rw [hnum, hmax]; omega
  · rw [hmax]; omega
  · intro s hs
    rw [hmax] at hs
    by_cases hse' : s = st.enqueue
    · subst hse'
      rw [hse]
      exact ⟨hslotIdx_bump, Nat.mod_lt _ (by norm_num [U32])⟩
    · rw [hsne s hse']
      exact hwf.slotLow s hs
  · intro s hs hocc
    rw [hmax] at hs
    rw [hnum, hids]
    by_cases hse' : s = st.enqueue
    · subst hse'
      rw [hse] at hocc ⊢
      refine ⟨?_, hgetlast⟩
      show st.num_objects < st.num_objects + 1
      omega
    · rw [hsne s hse'] at hocc ⊢
      obtain ⟨h1, h2⟩ := hwf.occ s hs hocc
      refine ⟨by omega, ?_⟩
      rw [getD_append_left (by omega : (slotAt st s).index < st.object_ids.length)]
      exact h2
  · intro p hp
    rw [hnum] at hp
    rw [hmax, hids]
    by_cases hpe : p = st.num_objects
    · subst hpe
      rw [hgetlast, hslotIdx_bump, hse]
      exact ⟨he, rfl, rfl⟩
    · have hp' : p < st.num_objects := by omega
      rw [getD_append_left (by omega : p < st.object_ids.length)]
      obtain ⟨h1, h2, h3⟩ := hwf.dense p hp'
      have hne : slotIdx (st.object_ids.getD p 0) ≠ st.enqueue := by
        intro hh
        rw [hh, hfree] at h2
        omega
      rw [hsne _ hne]
      exact ⟨h1, h2, h3⟩
  · refine ⟨L', ?_, hnd.of_cons, ?_, ?_⟩
    · refine Chain_congr hchain' hmax ?_
      intro t ht
      have hte : t ≠ st.enqueue := fun hh => (hnd.not_mem) (hh ▸ ht)
      exact hsne t hte
    · rw [hnum, hmax]; omega
    · intro s hs
      rw [hmax] at hs
      by_cases hse' : s = st.enqueue
      · subst hse'
        rw [hse]
        constructor
        · intro hh
          exfalso
          have hh' : st.num_objects = 65535 := hh
          omega
        · intro hh
          exact absurd hh hnd.not_mem
      · rw [hsne s hse']
        rw [hcov s hs]
        simp [List.mem_cons, hse']

end WfPreservation

section EraseLemmas

variable [Inhabited α]

theorem erase_num (st : freelist_t α) (h : Nat) :
    (erase st h).num_objects = st.num_objects - 1 := rfl

theorem erase_enqueue (st : freelist_t α) (h : Nat) :
    (erase st h).enqueue = slotIdx h := rfl

theorem erase_max (st : freelist_t α) (h : Nat) :
    (erase st h).max_objects = st.max_objects := rfl

theorem erase_objects (st : freelist_t α) (h : Nat) :
    (erase st h).objects =
      (st.objects.set (slotAt st (slotIdx h)).index
        (st.objects.getD (st.num_objects - 1) default)).take (st.num_objects - 1) := rfl

theorem erase_ids (st : freelist_t α) (h : Nat) :
    (erase st h).object_ids =
      (st.object_ids.set (slotAt st (slotIdx h)).index
        (st.object_ids.getD (st.num_objects - 1) 0)).take (st.num_objects - 1) := rfl

theorem erase_indices_len (st : freelist_t α) (h : Nat) :
    (erase st h).indices.length = st.indices.length := by
  show (modifyAt (modifyAt _ _ _) _ _).length = _
  rw [length_modifyAt, length_modifyAt]

/-- The erased slot ends up tombstoned, pushed on the free list, with its
generation id untouched. -/
theorem erase_slotAt_self {st : freelist_t α} {h : Nat}
    (hs_len : slotIdx h < st.indices.length) :
    slotAt (erase st h) (slotIdx h) =
      ⟨(slotAt st (slotIdx h)).id, tombstone, st.enqueue⟩ := by
  show (modifyAt (modifyAt st.indices (slotIdx (st.object_ids.getD (st.num_objects - 1) 0))
      (fun e => { e with index := (slotAt st (slotIdx h)).index })) (slotIdx h)
      (fun e => { e with index := tombstone, next := st.enqueue })).getD (slotIdx h) dummyIdx = _
  rw [getD_modifyAt_self (by rw [length_modifyAt]; exact hs_len)]
  by_cases hss : slotIdx (st.object_ids.getD (st.num_objects - 1) 0) = slotIdx h
  · rw [hss, getD_modifyAt_self hs_len]; rfl
  · rw [getD_modifyAt_ne hss]; rfl

/-- When the last dense element's slot differs from the erased one, it is
repointed at the vacated dense position, id and link untouched. -/
theorem erase_slotAt_moved {st : freelist_t α} {h : Nat}
    (hs2_len : slotIdx (st.object_ids.getD (st.num_objects - 1) 0) < st.indices.length)
    (hne : slotIdx (st.object_ids.getD (st.num_objects - 1) 0) ≠ slotIdx h) :
    slotAt (erase st h) (slotIdx (st.object_ids.getD (st.num_objects - 1) 0)) =
      ⟨(slotAt st (slotIdx (st.object_ids.getD (st.num_objects - 1) 0))).id,
        (slotAt st (slotIdx h)).index,
        (slotAt st (slotIdx (st.object_ids.getD (st.num_objects - 1) 0))).next⟩ := by
  show (modifyAt (modifyAt st.indices (slotIdx (st.object_ids.getD (st.num_objects - 1) 0))
      (fun e => { e with index := (slotAt st (slotIdx h)).index })) (slotIdx h)
      (fun e => { e with index := tombstone, next := st.enqueue })).getD
      (slotIdx (st.object_ids.getD (st.num_objects - 1) 0)) dummyIdx = _
  rw [getD_modifyAt_ne (fun hh => hne hh.symm), getD_modifyAt_self hs2_len]; rfl

/-- Any slot other than the erased one and the moved one is untouched. -/
theorem erase_slotAt_other {st : freelist_t α} {h t : Nat}
    (ht1 : t ≠ slotIdx h)
    (ht2 : t ≠ slotIdx (st.object_ids.getD (st.num_objects - 1) 0)) :
    slotAt (erase st h) t = slotAt st t := by
  show (modifyAt (modifyAt st.indices (slotIdx (st.object_ids.getD (st.num_objects - 1) 0))
      (fun e => { e with index := (slotAt st (slotIdx h)).index })) (slotIdx h)
      (fun e => { e with index := tombstone, next := st.enqueue })).getD t dummyIdx = _
  rw [getD_modifyAt_ne (fun hh => ht1 hh.symm), getD_modifyAt_ne (fun hh => ht2 hh.symm)]; rfl

end EraseLemmas

section WfFacts

/-- Unfolding of a successful `contains` test on a well-formed pool. -/
theorem contains_true_wf {st : freelist_t α} {h : Nat} (hwf : Wf st)
    (hc : contains st h = some true) :
    slotIdx h < st.max_objects ∧ (slotAt st (slotIdx h)).id = h ∧
    (slotAt st (slotIdx h)).index ≠ tombstone ∧
    (slotAt st (slotIdx h)).index < st.num_objects ∧
    st.object_ids.getD (slotAt st (slotIdx h)).index 0 = h := by
  obtain ⟨h1, h2, h3⟩ := contains_some_true hc
  rw [hwf.lenIndices] at h1
  obtain ⟨h4, h5⟩ := hwf.occ _ h1 h3
  exact ⟨h1, h2, h3, h4, h5.trans h2⟩

/-- Two occupied slots with the same dense position coincide. -/
theorem occ_index_inj {st : freelist_t α} (hwf : Wf st) {s1 s2 : Nat}
    (h1 : s1 < st.max_objects) (h2 : s2 < st.max_objects)
    (ho1 : (slotAt st s1).index ≠ tombstone) (ho2 : (slotAt st s2).index ≠ tombstone)
    (heq : (slotAt st s1).index = (slotAt st s2).index) : s1 = s2 := by
  have e1 := (hwf.occ s1 h1 ho1).2
  have e2 := (hwf.occ s2 h2 ho2).2
  rw [heq, e2] at e1
  have l1 := (hwf.slotLow s1 h1).1
  have l2 := (hwf.slotLow s2 h2).1
  rw [← l1, ← l2, e1]

end WfFacts

section WfErase

/-- Erasing a handle accepted by `contains` preserves every structural
invariant. -/
theorem Wf_erase [Inhabited α] {st : freelist_t α} {h : Nat} (hwf : Wf st)
    (hc : contains st h = some true) : Wf (erase st h) := by
  obtain ⟨hsM, hid, hoccS, hpn, hidsp⟩ := contains_true_wf hwf hc
  have hml : st.max_objects < 65535 := hwf.maxLt
  have hnle : st.num_objects ≤ st.max_objects := hwf.numLe
  have hlenIds : st.object_ids.length = st.num_objects := hwf.lenIds
  have hlenObj : st.objects.length = st.num_objects := hwf.lenObjects
  have hleni : st.indices.length = st.max_objects := hwf.lenIndices
  have htomb : tombstone = 65535 := rfl
  have hn1 : 1 ≤ st.num_objects := by omega
  obtain ⟨hs2M, hs2idx, hs2id⟩ := hwf.dense (st.num_objects - 1) (by omega)
  have hs_len : slotIdx h < st.indices.length := by omega
  have hs2_len : slotIdx (st.object_ids.getD (st.num_objects - 1) 0) < st.indices.length := by
    omega
  have hEmax : (erase st h).max_objects = st.max_objects := rfl
  have hEnum : (erase st h).num_objects = st.num_objects - 1 := rfl
  have hself := erase_slotAt_self hs_len
  have hidsP : (slotAt st (slotIdx h)).index < st.num_objects - 1 →
      (erase st h).object_ids.getD (slotAt st (slotIdx h)).index 0 =
        st.object_ids.getD (st.num_objects - 1) 0 := by
    intro hlt'
    rw [erase_ids, getD_take hlt',
      getD_set_self (by omega : (slotAt st (slotIdx h)).index < st.object_ids.length)]
  have hids' : ∀ q, q < st.num_objects - 1 → q ≠ (slotAt st (slotIdx h)).index →
      (erase st h).object_ids.getD q 0 = st.object_ids.getD q 0 := by
    intro q hq hqp
    rw [erase_ids, getD_take hq, getD_set_ne (fun hh => hqp hh.symm)]
  refine ⟨?_, ?_, ?_, ?_, ?_, ?_, ?_, ?_, ?_⟩
  · rw [erase_objects, hEnum]
    simp only [List.length_take, List.length_set, hlenObj]
    omega
  · rw [erase_ids, hEnum]
    simp only [List.length_take, List.length_set, hlenIds]
    omega
  · rw [erase_indices_len, hleni]
    rfl
  · rw [hEnum, hEmax]; omega
  · rw [hEmax]; omega
  · intro t ht
    rw [hEmax] at ht
    by_cases ht1 : t = slotIdx h
    · subst ht1
      rw [hself]
      exact hwf.slotLow _ (by omega)
    · by_cases ht2 : t = slotIdx (st.object_ids.getD (st.num_objects - 1) 0)
      · subst ht2
        rw [erase_slotAt_moved hs2_len ht1]
        exact hwf.slotLow _ (by omega)
      · rw [erase_slotAt_other ht1 ht2]
        exact hwf.slotLow t ht
  · intro t ht hocct
    rw [hEmax] at ht
    by_cases ht1 : t = slotIdx h
    · subst ht1
      rw [hself] at hocct
      exact absurd rfl hocct
    · by_cases ht2 : t = slotIdx (st.object_ids.getD (st.num_objects - 1) 0)
      · subst ht2
        have hplt : (slotAt st (slotIdx h)).index < st.num_objects - 1 := by
          rcases Nat.lt_or_ge (slotAt st (slotIdx h)).index (st.num_objects - 1) with hx | hx
          · exact hx
          · exfalso
            have hpe : (slotAt st (slotIdx h)).index = st.num_objects - 1 := by omega
            apply ht1
            rw [← hpe, hidsp]
        rw [erase_slotAt_moved hs2_len ht1]
        refine ⟨?_, ?_⟩
        · show (slotAt st (slotIdx h)).index < st.num_objects - 1
          exact hplt
        · show (erase st h).object_ids.getD (slotAt st (slotIdx h)).index 0 = _
          rw [hidsP hplt, hs2id]
      · rw [erase_slotAt_other ht1 ht2] at hocct ⊢
        obtain ⟨hq, hqe⟩ := hwf.occ t ht hocct
        have hqnp : (slotAt st t).index ≠ (slotAt st (slotIdx h)).index :=
          fun hh => ht1 (occ_index_inj hwf ht hsM hocct hoccS hh)
        have hqn1 : (slotAt st t).index ≠ st.num_objects - 1 := by
          intro hh
          apply ht2
          refine occ_index_inj hwf ht hs2M hocct ?_ ?_
          · rw [hs2idx]; omega
          · rw [hh, hs2idx]
        refine ⟨?_, ?_⟩
        · show (slotAt st t).index < st.num_objects - 1
          omega
        · show (erase st h).object_ids.getD (slotAt st t).index 0 = _
          rw [hids' _ (by omega) hqnp]
          exact hqe
  · intro pp hp
    rw [hEnum] at hp
    by_cases hppp : pp = (slotAt st (slotIdx h)).index
    · have hplt : (slotAt st (slotIdx h)).index < st.num_objects - 1 := hppp ▸ hp
      have hs2ns : slotIdx (st.object_ids.getD (st.num_objects - 1) 0) ≠ slotIdx h := by
        intro hh
        rw [hh] at hs2idx
        omega
      rw [hppp, hidsP hplt]
      rw [hEmax]
      refine ⟨hs2M, ?_, ?_⟩
      · rw [erase_slotAt_moved hs2_len hs2ns]
      · rw [erase_slotAt_moved hs2_len hs2ns]
        exact hs2id
    · rw [hids' pp hp hppp]
      obtain ⟨hd1, hd2, hd3⟩ := hwf.dense pp (by omega)
      have hs3ne1 : slotIdx (st.object_ids.getD pp 0) ≠ slotIdx h := by
        intro hh
        rw [hh] at hd2
        exact hppp hd2.symm
      have hs3ne2 : slotIdx (st.object_ids.getD pp 0) ≠
          slotIdx (st.object_ids.getD (st.num_objects - 1) 0) := by
        intro hh
        rw [hh, hs2idx] at hd2
        omega
      rw [erase_slotAt_other hs3ne1 hs3ne2, hEmax]
      exact ⟨hd1, hd2, hd3⟩
  · obtain ⟨L, hch, hnd, hlen, hcov⟩ := hwf.chain
    have hsnotL : slotIdx h ∉ L := fun hm => hoccS ((hcov _ hsM).mpr hm)
    have hs2notL : slotIdx (st.object_ids.getD (st.num_objects - 1) 0) ∉ L := by
      intro hm
      have := (hcov _ hs2M).mpr hm
      rw [hs2idx] at this
      omega
    refine ⟨slotIdx h :: L, ?_, List.Nodup.cons hsnotL hnd, ?_, ?_⟩
    · refine Chain.cons (show slotIdx h < (erase st h).max_objects from by rw [hEmax]; omega) ?_
      show Chain (erase st h) (slotAt (erase st h) (slotIdx h)).next L
      rw [hself]
      exact Chain_congr hch hEmax
        (fun t htL => erase_slotAt_other (fun hh => hsnotL (hh ▸ htL))
          (fun hh => hs2notL (hh ▸ htL)))
    · simp only [List.length_cons]
      rw [hEnum, hEmax]
      omega
    · intro t ht
      rw [hEmax] at ht
      by_cases ht1 : t = slotIdx h
      · subst ht1
        rw [hself]
        exact ⟨fun _ => List.mem_cons_self _ _, fun _ => rfl⟩
      · by_cases ht2 : t = slotIdx (st.object_ids.getD (st.num_objects - 1) 0)
        · have hpn1 : (slotAt st (slotIdx h)).index ≠ st.num_objects - 1 := by
            intro hh
            apply ht1
            rw [ht2, ← hh, hidsp]
          subst ht2
          rw [erase_slotAt_moved hs2_len ht1]
          constructor
          · intro hidx
            exfalso
            have hpx : (slotAt st (slotIdx h)).index = 65535 := hidx
            omega
          · intro hmem
            rcases List.mem_cons.mp hmem with hx | hx
            · exact absurd hx ht1
            · exact absurd hx hs2notL
        · rw [erase_slotAt_other ht1 ht2, hcov t ht]
          simp [List.mem_cons, ht1]

end WfErase

section WfBase

theorem slotAt_mk {C s : Nat} (hs : s < C) :
    slotAt (freelist_mk α C benign) s = ⟨s, tombstone, (s + 1) % U16⟩ := by
  have h1 : tombstone % U16 = tombstone := by norm_num [tombstone, U16]
  simp [slotAt, freelist_mk, benign, List.getD_eq_getElem?_getD,
    List.getElem?_range hs, h1]

theorem Chain_mk_range (C : Nat) (hC : C < 65535) :
    ∀ j, j ≤ C →
      Chain (freelist_mk α C benign) (C - j) (List.range' (C - j) j) := by
  intro j
  induction j with
  | zero =>
    intro _
    simpa using (Chain.nil : Chain (freelist_mk α C benign) _ [])
  | succ j ih =>
    intro hj
    have hk : C - (j + 1) < C := by omega
    have hr : List.range' (C - (j + 1)) (j + 1) =
        (C - (j + 1)) :: List.range' (C - (j + 1) + 1) j := rfl
    rw [hr]
    refine Chain.cons (show C - (j + 1) < (freelist_mk α C benign).max_objects from hk) ?_
    have hnext : (slotAt (freelist_mk α C benign) (C - (j + 1))).next = C - (j + 1) + 1 := by
      rw [slotAt_mk hk]
      show (C - (j + 1) + 1) % U16 = C - (j + 1) + 1
      apply Nat.mod_eq_of_lt
      have hU : U16 = 65536 := rfl
      omega
    rw [hnext, show C - (j + 1) + 1 = C - j from by omega]
    exact ih (by omega)

/-- The freshly constructed pool — with its indeterminate `index` fields
instantiated to `tombstone` — satisfies every structural invariant. -/
theorem Wf_mk {C : Nat} (hC : C < 65535) : Wf (freelist_mk α C benign) := by
  have hU : U16 = 65536 := rfl
  have hU32 : U32 = 4294967296 := rfl
  refine ⟨rfl, rfl, by simp [freelist_mk], Nat.zero_le _, hC, ?_, ?_, ?_, ?_⟩
  · intro s hs
    have hs' : s < C := hs
    rw [slotAt_mk hs']
    constructor
    · show s % U16 = s
      apply Nat.mod_eq_of_lt
      omega
    · show s < U32
      omega
  · intro s hs hocc
    have hs' : s < C := hs
    rw [slotAt_mk hs'] at hocc
    exact absurd rfl hocc
  · intro p hp
    have hp0 : p < 0 := hp
    omega
  · refine ⟨List.range C, ?_, List.nodup_range C, by simp [freelist_mk], ?_⟩
    · have := @Chain_mk_range α C hC C le_rfl
      simpa [List.range_eq_range'] using this
    · intro s hs
      have hs' : s < C := hs
      rw [slotAt_mk hs']
      simp [List.mem_range, hs']

end WfBase

section Reach

/-- A defined-behaviour step preserves the structural invariants. -/
theorem Wf_step [Inhabited α] {st st' : freelist_t α} (hwf : Wf st)
    (hstep : Step st st') : Wf st' := by
  cases hstep with
  | insertStep hlt hins =>
    have hU : U16 = 65536 := rfl
    have hml : st.max_objects < 65535 := hwf.maxLt
    have hnle : st.num_objects ≤ st.max_objects := hwf.numLe
    rw [insertOp_eq _ (by rw [hwf.lenIndices]; exact (enqueue_head hwf hlt).1)
      hwf.lenIds hwf.lenObjects (by omega)] at hins
    simp only [Option.some.injEq, Prod.mk.injEq] at hins
    obtain ⟨-, h2⟩ := hins
    subst h2
    exact Wf_postInsert _ hwf hlt
  | eraseStep hc => exact Wf_erase hwf hc

/-- Every reachable state satisfies the structural invariants. -/
theorem Reachable_Wf [Inhabited α] {C : Nat} {st : freelist_t α}
    (hr : Reachable C st) : Wf st := by
  obtain ⟨hC, hsteps⟩ := hr
  induction hsteps with
  | refl => exact Wf_mk hC
  | tail _ hstep ih => exact Wf_step ih hstep

end Reach

section ErasePreserves

/-- Lookup on a well-formed-enough state reads the dense position of the
handle's slot. -/
theorem lookup_eq_getD [Inhabited α] {st : freelist_t α} {h : Nat}
    (hlen : slotIdx h < st.indices.length)
    (hidx : (slotAt st (slotIdx h)).index < st.objects.length) :
    lookup st h = some (st.objects.getD (slotAt st (slotIdx h)).index default) := by
  unfold lookup
  rw [slotAt_getElem? hlen]
  show st.objects[(slotAt st (slotIdx h)).index]? = _
  rw [List.getElem?_eq_getElem hidx, getD_of_lt hidx]

/-- Erasing a valid handle keeps every other valid handle valid and leaves
the value it retrieves unchanged. -/
theorem erase_preserves_other [Inhabited α] {st : freelist_t α} {h h' : Nat}
    (hwf : Wf st) (hc : contains st h = some true) (hne : h' ≠ h)
    (hc' : contains st h' = some true) :
    contains (erase st h) h' = some true ∧ lookup (erase st h) h' = lookup st h' := by
  obtain ⟨hsM, hid, hoccS, hpn, hidsp⟩ := contains_true_wf hwf hc
  obtain ⟨hsM', hid', hoccS', hpn', hidsp'⟩ := contains_true_wf hwf hc'
  have hml : st.max_objects < 65535 := hwf.maxLt
  have hnle : st.num_objects ≤ st.max_objects := hwf.numLe
  have hlenIds : st.object_ids.length = st.num_objects := hwf.lenIds
  have hlenObj : st.objects.length = st.num_objects := hwf.lenObjects
  have hleni : st.indices.length = st.max_objects := hwf.lenIndices
  have htomb : tombstone = 65535 := rfl
  have hn1 : 1 ≤ st.num_objects := by omega
  obtain ⟨hs2M, hs2idx, hs2id⟩ := hwf.dense (st.num_objects - 1) (by omega)
  have hs_len : slotIdx h < st.indices.length := by omega
  have hsne : slotIdx h' ≠ slotIdx h := by
    intro hh
    apply hne
    rw [← hid, ← hid', hh]
  have hppne : (slotAt st (slotIdx h')).index ≠ (slotAt st (slotIdx h)).index :=
    fun hh => hsne (occ_index_inj hwf hsM' hsM hoccS' hoccS hh)
  have hlenE : (erase st h).indices.length = st.indices.length := erase_indices_len st h
  have hlenEobj : (erase st h).objects.length = st.num_objects - 1 := by
    rw [erase_objects]
    simp only [List.length_take, List.length_set, hlenObj]
    omega
  by_cases hlast : (slotAt st (slotIdx h')).index = st.num_objects - 1
  · -- the other handle owns the last dense position: it is the moved one
    have hlastId : st.object_ids.getD (st.num_objects - 1) 0 = h' := by
      rw [← hlast, hidsp']
    have hs2eq : slotIdx (st.object_ids.getD (st.num_objects - 1) 0) = slotIdx h' := by
      rw [hlastId]
    have hmoved := @erase_slotAt_moved α _ st h (by omega) (by rw [hs2eq]; exact hsne)
    rw [hs2eq] at hmoved
    have hplt : (slotAt st (slotIdx h)).index < st.num_objects - 1 := by omega
    constructor
    · refine contains_eq_some_true (by omega) ?_ ?_
      · rw [hmoved]
        exact hid'
      · rw [hmoved]
        show (slotAt st (slotIdx h)).index ≠ tombstone
        omega
    · rw [lookup_eq_getD (by omega) (by rw [hmoved, hlenEobj]; exact hplt),
        lookup_eq_getD (by omega) (by omega), hmoved]
      show some ((erase st h).objects.getD (slotAt st (slotIdx h)).index default) = _
      rw [erase_objects, getD_take hplt,
        getD_set_self (by omega : (slotAt st (slotIdx h)).index < st.objects.length), hlast]
  · -- the other handle's position is untouched by the swap
    have hplt' : (slotAt st (slotIdx h')).index < st.num_objects - 1 := by omega
    have hs2ne : slotIdx h' ≠ slotIdx (st.object_ids.getD (st.num_objects - 1) 0) := by
      intro hh
      rw [← hh] at hs2idx
      omega
    have hother := erase_slotAt_other hsne hs2ne
    constructor
    · refine contains_eq_some_true (by omega) ?_ ?_
      · rw [hother]; exact hid'
      · rw [hother]; exact hoccS'
    · rw [lookup_eq_getD (by omega) (by rw [hother, hlenEobj]; exact hplt'),
        lookup_eq_getD (by omega) (by omega), hother]
      rw [erase_objects, getD_take hplt', getD_set_ne (fun hh => hppne hh.symm)]

end ErasePreserves

/-- Claim C1 (code bug).  On a fresh capacity-1 pool, inserting the value
`{id := 0, payload := 42}` stores the value correctly, but `insert` executes
`return o->id;` with `o` pointing at the stored copy of the value, so it
returns the value's own `id` member `0` — for which `contains` is `false` —
instead of the slot's generation-tagged id `0x10000` (which `emplace`
returns for the identical pool state, and for which `contains` is `true`
and `lookup` yields the inserted value). -/
theorem insert_returns_value_id_not_handle :
    insert valWithId.id (freelist_mk valWithId 1 benign) ⟨0, 42⟩ =
      some (0, ⟨1, 1, [⟨0, 42⟩], [65536], [⟨65536, 0, 1⟩], 1⟩) ∧
    contains (⟨1, 1, [⟨0, 42⟩], [65536], [⟨65536, 0, 1⟩], 1⟩ : freelist_t valWithId) 0 =
      some false ∧
    emplace (freelist_mk valWithId 1 benign) ⟨0, 42⟩ =
      some (65536, ⟨1, 1, [⟨0, 42⟩], [65536], [⟨65536, 0, 1⟩], 1⟩) ∧
    contains (⟨1, 1, [⟨0, 42⟩], [65536], [⟨65536, 0, 1⟩], 1⟩ : freelist_t valWithId) 65536 =
      some true ∧
    lookup (⟨1, 1, [⟨0, 42⟩], [65536], [⟨65536, 0, 1⟩], 1⟩ : freelist_t valWithId) 65536 =
      some ⟨0, 42⟩ := by
  decide

/-- Claim C2 (code bug).  The constructor writes only `id` and `next` of
each slot record; the `index` field is left default-initialized
(indeterminate).  Taking the indeterminate bytes to be `0`: a freshly
constructed capacity-1 pool is empty, yet its free slot has
`index = 0 ≠ tombstone` — violating the claimed invariant that every free
slot of a fresh pool has `dense_position == tombstone` — and consequently
`contains 0` answers `true` on the empty pool for the never-issued
handle `0`. -/
theorem ctor_leaves_index_uninitialized :
    (freelist_mk Unit 1 (fun _ => 0)).num_objects = 0 ∧
    (slotAt (freelist_mk Unit 1 (fun _ => 0)) 0).index ≠ tombstone ∧
    contains (freelist_mk Unit 1 (fun _ => 0)) 0 = some true := by
  decide

/-- Claim C4 (code bug).  `insert_alloc` asserts
`_num_objects <= _max_objects` — `<=`, not `<` — so on a full pool
(`count == capacity`) the assertion is satisfied and does not fire; the code
then proceeds to read `_indices[_enqueue]` with `_enqueue == capacity`,
out of the slot table's bounds (modelled by `insert_alloc` returning
`none`). -/
theorem insert_assert_passes_at_capacity :
    emplace (freelist_mk Unit 1 benign) () = some (65536, fullPool) ∧
    fullPool.num_objects = fullPool.max_objects ∧
    insert_alloc_assert fullPool = true ∧
    fullPool.enqueue = fullPool.max_objects ∧
    insert_alloc fullPool = none := by
  decide

/-- Claim C3, counterexample.  The handle `1` is a 32-bit value whose low
16 bits denote slot index `1`, which is out of range for a capacity-1 pool;
`contains` performs `_indices[id & index_mask]` with no bounds check, so the
slot-table access is out of bounds (modelled as `none`) rather than
returning a definite boolean. -/
theorem contains_oob_at_capacity_1 :
    (1 : Nat) < U32 ∧
    (freelist_mk Unit 1 benign).max_objects ≤ slotIdx 1 ∧
    contains (freelist_mk Unit 1 benign) 1 = none := by
  decide

/-- Claim C7, counterexample.  Capacity `65535` satisfies the claim's
acceptance condition `1 ≤ c < 65536`, but the constructor's assertion is
`max_objects < 0xFFFF`, i.e. `c < 65535`, which is false at `c = 65535`;
moreover the claim's lower bound is not checked at all: capacity `0` is
accepted. -/
theorem ctor_assert_rejects_65535 :
    (1 ≤ 65535 ∧ 65535 < 65536) ∧ ctor_assert 65535 = false ∧
    ctor_assert 0 = true := by
  decide

/-- Claim C9, counterexample.  Move-assigning from the (empty,
capacity-0) source `freelist_default` into the distinct, non-empty
destination `fullPool` executes `swap(other)`: the source ends up holding
the destination's previous state — capacity 1 with one live object — not
empty with capacity zero as claimed. -/
theorem move_assign_leaves_source_nonempty :
    (move_assign fullPool (freelist_default Unit)).2.max_objects = 1 ∧
    (move_assign fullPool (freelist_default Unit)).2.num_objects = 1 := by
  decide

/-- Claim C9, amended.  Move construction default-constructs and swaps, so
it transfers the source's state and leaves the source empty with capacity
zero; move assignment (between distinct objects) is a pure swap, so the
source is left with the destination's previous state — empty/capacity-zero
only when the destination was default-constructed. -/
theorem move_ctor_empties_source_move_assign_swaps (src dst : freelist_t α) :
    move_ctor src = (src, freelist_default α) ∧
    (freelist_default α).num_objects = 0 ∧
    (freelist_default α).max_objects = 0 ∧
    move_assign dst src = (src, dst) :=
  ⟨rfl, rfl, rfl, rfl⟩

/-- Claim C10, counterexample.  On a capacity-1 pool holding the value
`{id := 0, payload := 42}` under the valid handle `0x10000`: after
`erase(0x10000)`, inserting `{id := 7, payload := 0}` via `insert` returns
`7` (the value's own `id` member, by `return o->id;`), whose low 16 bits
`7` differ from the erased handle's low 16 bits `0`, and which is not the
slot's previous id plus `0x10000` (`0x20000`). -/
theorem insert_after_erase_returns_value_id :
    contains (⟨1, 1, [⟨0, 42⟩], [65536], [⟨65536, 0, 1⟩], 1⟩ : freelist_t valWithId) 65536 =
      some true ∧
    (insert valWithId.id
        (erase (⟨1, 1, [⟨0, 42⟩], [65536], [⟨65536, 0, 1⟩], 1⟩ : freelist_t valWithId) 65536)
        ⟨7, 0⟩).map Prod.fst = some 7 ∧
    slotIdx 7 ≠ slotIdx 65536 ∧
    7 ≠ (65536 + new_object_id_add) % U32 := by
  decide

section ConcreteStates

theorem Wf_fullPool : Wf fullPool := by
  have h := @Wf_postInsert Unit (freelist_mk Unit 1 benign) () (Wf_mk (by norm_num)) (by decide)
  have he : postInsert (freelist_mk Unit 1 benign) () = fullPool := by decide
  rwa [he] at h

theorem stAB_reachable : Reachable 2 stAB := by
  refine ⟨by norm_num, ?_⟩
  have s1 : Step (freelist_mk Nat 2 benign)
      (⟨1, 2, [10], [65536], [⟨65536, 0, 1⟩, ⟨1, 65535, 2⟩], 1⟩ : freelist_t Nat) :=
    @Step.insertStep Nat _ _ _ ⟨65536, 0, 1⟩ 10 (by decide) (by decide)
  have s2 : Step (⟨1, 2, [10], [65536], [⟨65536, 0, 1⟩, ⟨1, 65535, 2⟩], 1⟩ : freelist_t Nat)
      stAB :=
    @Step.insertStep Nat _ _ _ ⟨65537, 1, 2⟩ 20 (by decide) (by decide)
  exact Relation.ReflTransGen.tail (Relation.ReflTransGen.tail Relation.ReflTransGen.refl s1) s2

end ConcreteStates

/-- Claim C6 (confirmed).  In every reachable state, erasing a valid handle
whose dense position is not `count - 1` leaves every other valid handle
valid with its retrieved value unchanged, and the count decreases by exactly
one.  (The conclusion in fact holds for the last position too; the
hypothesis mirrors the claim.) -/
theorem erase_swap_and_pop_preserves_others [Inhabited α] {C : Nat}
    {st : freelist_t α} {h h' : Nat}
    (hr : Reachable C st) (hc : contains st h = some true)
    (_hnl : (slotAt st (slotIdx h)).index ≠ st.num_objects - 1)
    (hne : h' ≠ h) (hc' : contains st h' = some true) :
    contains (erase st h) h' = some true ∧
    lookup (erase st h) h' = lookup st h' ∧
    (erase st h).num_objects + 1 = st.num_objects := by
  have hwf := Reachable_Wf hr
  obtain ⟨a, b⟩ := erase_preserves_other hwf hc hne hc'
  have hpn := (contains_true_wf hwf hc).2.2.2.1
  refine ⟨a, b, ?_⟩
  rw [erase_num]
  omega

/-- Witness for C6: on the reachable capacity-2 pool holding 10 and 20,
erasing handle `0x10000` (dense position 0, not last) keeps `0x10001` valid
with value 20 and drops the count from 2 to 1. -/
theorem erase_swap_and_pop_witness :
    Reachable 2 stAB ∧ contains stAB 65536 = some true ∧
    (slotAt stAB (slotIdx 65536)).index ≠ stAB.num_objects - 1 ∧
    (65537 : Nat) ≠ 65536 ∧ contains stAB 65537 = some true ∧
    (contains (erase stAB 65536) 65537 = some true ∧
      lookup (erase stAB 65536) 65537 = lookup stAB 65537 ∧
      (erase stAB 65536).num_objects + 1 = stAB.num_objects) :=
  ⟨stAB_reachable, by decide, by decide, by decide, by decide,
    erase_swap_and_pop_preserves_others stAB_reachable (by decide) (by decide)
      (by decide) (by decide)⟩

/-- Claim C8 (confirmed).  In every reachable state, iterating from
`begin()` to `end()` yields exactly `count` handles (the dense handle
mirror, in dense-storage order — `iterate` is by definition that sequence),
each accepted by `contains`, with no duplicates. -/
theorem iterate_visits_exactly_live_handles [Inhabited α] {C : Nat}
    {st : freelist_t α} (hr : Reachable C st) :
    (iterate st).length = st.num_objects ∧
    (∀ h0 ∈ iterate st, contains st h0 = some true) ∧
    (iterate st).Nodup := by
  have hwf := Reachable_Wf hr
  have hml : st.max_objects < 65535 := hwf.maxLt
  have hnle : st.num_objects ≤ st.max_objects := hwf.numLe
  have htomb : tombstone = 65535 := rfl
  have hit : iterate st = st.object_ids := by
    rw [iterate, ← hwf.lenIds]
    exact List.take_length _
  refine ⟨by rw [hit, hwf.lenIds], ?_, ?_⟩
  · intro h0 hm
    rw [hit] at hm
    obtain ⟨p, hp, hgp⟩ := List.getElem_of_mem hm
    have hp' : p < st.num_objects := by rw [← hwf.lenIds]; exact hp
    have hg : st.object_ids.getD p 0 = h0 := by rw [getD_of_lt hp]; exact hgp
    obtain ⟨hd1, hd2, hd3⟩ := hwf.dense p hp'
    rw [hg] at hd1 hd2 hd3
    refine contains_eq_some_true (by rw [hwf.lenIndices]; exact hd1) hd3 ?_
    rw [hd2]
    omega
  · rw [hit, List.nodup_iff_injective_getElem]
    intro i j hij
    simp only at hij
    have hi : (i : Nat) < st.num_objects := by rw [← hwf.lenIds]; exact i.isLt
    have hj : (j : Nat) < st.num_objects := by rw [← hwf.lenIds]; exact j.isLt
    obtain ⟨-, hd2i, -⟩ := hwf.dense i hi
    obtain ⟨-, hd2j, -⟩ := hwf.dense j hj
    rw [getD_of_lt i.isLt] at hd2i
    rw [getD_of_lt j.isLt] at hd2j
    rw [hij, hd2j] at hd2i
    exact Fin.ext hd2i.symm

/-- Witness for C8: the conclusions instantiated on the reachable
capacity-2 pool holding two values. -/
theorem iterate_visits_witness :
    Reachable 2 stAB ∧
    ((iterate stAB).length = stAB.num_objects ∧
      (∀ h0 ∈ iterate stAB, contains stAB h0 = some true) ∧
      (iterate stAB).Nodup) :=
  ⟨stAB_reachable, iterate_visits_exactly_live_handles stAB_reachable⟩

/-- Claim C3, amended.  On a well-formed pool, `contains` returns a definite
boolean exactly for the handles whose low 16 bits denote a slot index below
the capacity (for larger slot indices the unchecked slot-table read is out
of bounds), and a handle to a freed-and-reused slot tests false: after
erasing a valid handle, the immediate reuse of its slot by `insert_alloc`
succeeds and leaves the old handle rejected. -/
theorem contains_total_within_bounds [Inhabited α] {st : freelist_t α}
    (hwf : Wf st) (id0 : Nat) :
    ((contains st id0).isSome ↔ slotIdx id0 < st.max_objects) ∧
    (contains st id0 = some true →
      ∃ in1 st1, insert_alloc (erase st id0) = some (in1, st1) ∧
        contains st1 id0 = some false) := by
  constructor
  · rw [← hwf.lenIndices]
    unfold contains
    rw [Option.isSome_map']
    constructor
    · intro hs
      by_contra hge
      rw [List.getElem?_eq_none (by omega)] at hs
      simp at hs
    · intro hlt
      rw [List.getElem?_eq_getElem hlt]
      rfl
  · intro hc
    obtain ⟨hsl, hid, hocc⟩ := contains_some_true hc
    have hid32 : id0 < U32 := by
      have := (hwf.slotLow (slotIdx id0) (by rw [← hwf.lenIndices]; exact hsl)).2
      rwa [hid] at this
    have hsE : slotAt (erase st id0) (slotIdx id0) = ⟨id0, tombstone, st.enqueue⟩ := by
      rw [erase_slotAt_self hsl, hid]
    have hlenE : (erase st id0).indices.length = st.indices.length := erase_indices_len st id0
    have hgE : (erase st id0).indices[(erase st id0).enqueue]? =
        some ⟨id0, tombstone, st.enqueue⟩ := by
      show (erase st id0).indices[slotIdx id0]? = _
      rw [slotAt_getElem? (by omega), hsE]
    refine ⟨⟨(id0 + new_object_id_add) % U32, (erase st id0).num_objects % U16, st.enqueue⟩,
      { erase st id0 with
        indices := (erase st id0).indices.set (slotIdx id0)
          ⟨(id0 + new_object_id_add) % U32, (erase st id0).num_objects % U16, st.enqueue⟩
        enqueue := st.enqueue
        object_ids := dwrite (erase st id0).object_ids ((erase st id0).num_objects % U16)
          ((id0 + new_object_id_add) % U32)
        num_objects := (erase st id0).num_objects + 1 }, ?_, ?_⟩
    · unfold insert_alloc
      rw [hgE]
      rfl
    · have hneq : ((id0 + new_object_id_add) % U32) ≠ id0 := by
        have h32 : id0 < 4294967296 := hid32
        show (id0 + 65536) % 4294967296 ≠ id0
        omega
      unfold contains
      have hlt1 : slotIdx id0 < ((erase st id0).indices.set (slotIdx id0)
          (⟨(id0 + new_object_id_add) % U32, (erase st id0).num_objects % U16,
            st.enqueue⟩ : index_t)).length := by
        rw [List.length_set]
        omega
      rw [List.getElem?_eq_getElem hlt1]
      have hget : ((erase st id0).indices.set (slotIdx id0)
          (⟨(id0 + new_object_id_add) % U32, (erase st id0).num_objects % U16,
            st.enqueue⟩ : index_t))[slotIdx id0] =
          ⟨(id0 + new_object_id_add) % U32, (erase st id0).num_objects % U16, st.enqueue⟩ := by
        rw [← getD_of_lt hlt1 dummyIdx]
        exact getD_set_self (by omega) _ _
      rw [hget]
      simp [hneq]

/-- Witness for the amended C3, on the reachable full capacity-1 pool and
its valid handle `0x10000`. -/
theorem contains_total_within_bounds_witness :
    Wf fullPool ∧ contains fullPool 65536 = some true ∧
    ((contains fullPool 65536).isSome ↔ slotIdx 65536 < fullPool.max_objects) ∧
    (∃ in1 st1, insert_alloc (erase fullPool 65536) = some (in1, st1) ∧
      contains st1 65536 = some false) :=
  ⟨Wf_fullPool, by decide,
    (contains_total_within_bounds Wf_fullPool 65536).1,
    (contains_total_within_bounds Wf_fullPool 65536).2 (by decide)⟩

/-- Claim C7, amended.  The constructor accepts exactly the capacities
`c < 65535` — its assertion is `max_objects < 0xFFFF`, with no lower bound —
and for every such `c` it produces an empty pool of capacity `c` which
(with the indeterminate `index` fields taken as `tombstone`) satisfies the
structural invariants. -/
theorem ctor_accepts_exactly_below_65535 (c : Nat) :
    (ctor_assert c = true ↔ c < 65535) ∧
    (c < 65535 →
      (freelist_mk α c benign).max_objects = c ∧
      (freelist_mk α c benign).num_objects = 0 ∧
      Wf (freelist_mk α c benign)) := by
  constructor
  · simp [ctor_assert]
  · intro hc
    exact ⟨rfl, rfl, Wf_mk hc⟩

/-- Witness for the amended C7 at capacity 3. -/
theorem ctor_accepts_witness :
    (3 : Nat) < 65535 ∧ (ctor_assert 3 = true ↔ (3 : Nat) < 65535) ∧
    (freelist_mk Unit 3 benign).max_objects = 3 ∧
    (freelist_mk Unit 3 benign).num_objects = 0 ∧
    Wf (freelist_mk Unit 3 benign) :=
  ⟨by decide, (@ctor_accepts_exactly_below_65535 Unit 3).1,
    ((@ctor_accepts_exactly_below_65535 Unit 3).2 (by decide)).1,
    ((@ctor_accepts_exactly_below_65535 Unit 3).2 (by decide)).2.1,
    ((@ctor_accepts_exactly_below_65535 Unit 3).2 (by decide)).2.2⟩

section WrapMachinery

/-- One insertion on the capacity-1 pool with a free slot of id `v`. -/
theorem insertOp_freeSlot (v : Nat) :
    insertOp (freeSlotPool v) () =
      some (⟨(v + new_object_id_add) % U32, 0, 1⟩,
        ⟨1, 1, [()], [(v + new_object_id_add) % U32],
          [⟨(v + new_object_id_add) % U32, 0, 1⟩], 1⟩) := rfl

/-- Erasing the single occupant of the capacity-1 pool returns it to the
free-slot shape, id untouched. -/
theorem erase_freeSlot (w : Nat) (hw : slotIdx w = 0) :
    erase (⟨1, 1, [()], [w], [⟨w, 0, 1⟩], 1⟩ : freelist_t Unit) w = freeSlotPool w := by
  have hg : [w].getD (1 - 1) 0 = w := rfl
  unfold erase
  simp only [hg, hw]
  rfl

/-- The low 16 bits of the slot-0 generation values vanish. -/
theorem cyc_val_low (k : Nat) : slotIdx ((new_object_id_add * (k + 1)) % U32) = 0 := by
  show ((65536 * (k + 1)) % (65536 * 65536)) % 65536 = 0
  rw [Nat.mul_mod_mul_left]
  exact Nat.mul_mod_right 65536 _

/-- Closed form of the insert/erase cycling: after `k` cycles the single
slot is free with generation id `0x10000 * (k + 1)` mod `2^32`. -/
theorem cyc_eq : ∀ k, cyc k = freeSlotPool ((new_object_id_add * (k + 1)) % U32) := by
  intro k
  induction k with
  | zero =>
    show cyc 0 = _
    rw [show (new_object_id_add * (0 + 1)) % U32 = 65536 from by
      norm_num [new_object_id_add, U32]]
    rfl
  | succ k ih =>
    have hw : slotIdx (((new_object_id_add * (k + 1)) % U32 + new_object_id_add) % U32) = 0 := by
      rw [slotIdx_bump]
      exact cyc_val_low k
    show (match insertOp (cyc k) () with
      | some p => erase p.2 p.1.id
      | none => cyc k) = _
    rw [ih, insertOp_freeSlot]
    show erase (⟨1, 1, [()], [((new_object_id_add * (k + 1)) % U32 + new_object_id_add) % U32],
        [⟨((new_object_id_add * (k + 1)) % U32 + new_object_id_add) % U32, 0, 1⟩], 1⟩ :
        freelist_t Unit) (((new_object_id_add * (k + 1)) % U32 + new_object_id_add) % U32) = _
    rw [erase_freeSlot _ hw]
    have hdist : new_object_id_add * (k + 1) + new_object_id_add =
        new_object_id_add * (k + 1 + 1) := by ring
    have harg : ((new_object_id_add * (k + 1)) % U32 + new_object_id_add) % U32 =
        (new_object_id_add * (k + 1 + 1)) % U32 := by
      rw [Nat.mod_add_mod, hdist]
    rw [harg]

/-- Every cycle state is reachable from the post-erase state by defined
insert/erase steps. -/
theorem cyc_reach : ∀ k, Relation.ReflTransGen Step (cyc 0) (cyc k) := by
  intro k
  induction k with
  | zero => exact Relation.ReflTransGen.refl
  | succ k ih =>
    have hw : slotIdx (((new_object_id_add * (k + 1)) % U32 + new_object_id_add) % U32) = 0 := by
      rw [slotIdx_bump]
      exact cyc_val_low k
    have hins : insertOp (cyc k) () =
        some (⟨((new_object_id_add * (k + 1)) % U32 + new_object_id_add) % U32, 0, 1⟩,
          ⟨1, 1, [()], [((new_object_id_add * (k + 1)) % U32 + new_object_id_add) % U32],
            [⟨((new_object_id_add * (k + 1)) % U32 + new_object_id_add) % U32, 0, 1⟩], 1⟩) := by
      rw [cyc_eq k]
      exact insertOp_freeSlot _
    have s1 : Step (cyc k)
        (⟨1, 1, [()], [((new_object_id_add * (k + 1)) % U32 + new_object_id_add) % U32],
          [⟨((new_object_id_add * (k + 1)) % U32 + new_object_id_add) % U32, 0, 1⟩], 1⟩ :
          freelist_t Unit) :=
      Step.insertStep (by rw [cyc_eq k]; exact Nat.one_pos) hins
    have hcont : contains
        (⟨1, 1, [()], [((new_object_id_add * (k + 1)) % U32 + new_object_id_add) % U32],
          [⟨((new_object_id_add * (k + 1)) % U32 + new_object_id_add) % U32, 0, 1⟩], 1⟩ :
          freelist_t Unit)
        (((new_object_id_add * (k + 1)) % U32 + new_object_id_add) % U32) = some true := by
      refine contains_eq_some_true ?_ ?_ ?_
      · rw [hw]; simp
      · rw [hw]; rfl
      · rw [hw]
        show (0 : Nat) ≠ tombstone
        decide
    have hcyc : cyc (k + 1) =
        erase (⟨1, 1, [()], [((new_object_id_add * (k + 1)) % U32 + new_object_id_add) % U32],
          [⟨((new_object_id_add * (k + 1)) % U32 + new_object_id_add) % U32, 0, 1⟩], 1⟩ :
          freelist_t Unit)
          (((new_object_id_add * (k + 1)) % U32 + new_object_id_add) % U32) := by
      show (match insertOp (cyc k) () with
        | some p => erase p.2 p.1.id
        | none => cyc k) = _
      rw [hins]
    have s2 : Step
        (⟨1, 1, [()], [((new_object_id_add * (k + 1)) % U32 + new_object_id_add) % U32],
          [⟨((new_object_id_add * (k + 1)) % U32 + new_object_id_add) % U32, 0, 1⟩], 1⟩ :
          freelist_t Unit) (cyc (k + 1)) := by
      rw [hcyc]
      exact Step.eraseStep hcont
    exact Relation.ReflTransGen.tail (Relation.ReflTransGen.tail ih s1) s2

/-- Invariant carried along instrumented step sequences: the watched slot's
generation id advances by exactly `0x10000` (mod `2^32`) per pop of that
slot, and the slot stays tombstoned until its first pop. -/
theorem stepsB_invariant [Inhabited α] {s : Nat} {st0 : freelist_t α} {b : Nat}
    {st' : freelist_t α} (hr : StepsB s st0 b st') (hwf0 : Wf st0) (h0 : Nat)
    (hs0 : s < st0.max_objects)
    (hid0 : (slotAt st0 s).id = h0)
    (hfree0 : (slotAt st0 s).index = tombstone) :
    Wf st' ∧ st'.max_objects = st0.max_objects ∧
    (slotAt st' s).id = (h0 + new_object_id_add * b) % U32 ∧
    (b = 0 → (slotAt st' s).index = tombstone) := by
  have h32 : h0 < U32 := by rw [← hid0]; exact (hwf0.slotLow s hs0).2
  induction hr with
  | refl =>
    refine ⟨hwf0, rfl, ?_, fun _ => hfree0⟩
    rw [Nat.mul_zero, Nat.add_zero, Nat.mod_eq_of_lt h32]
    exact hid0
  | @insertStep b1 st2 st3 in1 v prev hlt hins ih =>
    obtain ⟨hwf, hmax, hidb, hfr⟩ := ih
    have hU : U16 = 65536 := rfl
    have hml : st2.max_objects < 65535 := hwf.maxLt
    have hnle : st2.num_objects ≤ st2.max_objects := hwf.numLe
    rw [insertOp_eq _ (by rw [hwf.lenIndices]; exact (enqueue_head hwf hlt).1)
      hwf.lenIds hwf.lenObjects (by omega)] at hins
    simp only [Option.some.injEq, Prod.mk.injEq] at hins
    obtain ⟨-, h2⟩ := hins
    subst h2
    refine ⟨Wf_postInsert _ hwf hlt, hmax, ?_, ?_⟩
    · by_cases he : st2.enqueue = s
      · rw [if_pos he]
        have hset : slotAt (postInsert st2 v) s =
            ⟨bumpId st2, st2.num_objects, (slotAt st2 st2.enqueue).next⟩ := by
          rw [← he]
          exact getD_set_self (by rw [hwf.lenIndices]; omega) _ _
        rw [hset]
        show bumpId st2 = (h0 + new_object_id_add * (b1 + 1)) % U32
        unfold bumpId
        rw [he, hidb, Nat.mod_add_mod,
          show h0 + new_object_id_add * b1 + new_object_id_add =
            h0 + new_object_id_add * (b1 + 1) from by ring]
      · rw [if_neg he]
        have hset : slotAt (postInsert st2 v) s = slotAt st2 s := getD_set_ne he _ _
        rw [Nat.add_zero, hset]
        exact hidb
    · by_cases he : st2.enqueue = s
      · rw [if_pos he]
        intro hh
        omega
      · rw [if_neg he]
        intro hh
        have hset : slotAt (postInsert st2 v) s = slotAt st2 s := getD_set_ne he _ _
        rw [hset]
        exact hfr (by omega)
  | @eraseStep b1 st2 h2 prev hc2 ih =>
    obtain ⟨hwf, hmax, hidb, hfr⟩ := ih
    obtain ⟨hsM2, hid2, hocc2, hpn2, hidsp2⟩ := contains_true_wf hwf hc2
    have hml : st2.max_objects < 65535 := hwf.maxLt
    have hnle : st2.num_objects ≤ st2.max_objects := hwf.numLe
    have hn1 : 1 ≤ st2.num_objects := by omega
    obtain ⟨hs2M, hs2idx, hs2id⟩ := hwf.dense (st2.num_objects - 1) (by omega)
    have hs_len2 : slotIdx h2 < st2.indices.length := by rw [hwf.lenIndices]; omega
    have hs2_len2 : slotIdx (st2.object_ids.getD (st2.num_objects - 1) 0) <
        st2.indices.length := by rw [hwf.lenIndices]; omega
    have hidpres : (slotAt (erase st2 h2) s).id = (slotAt st2 s).id := by
      by_cases ht1 : s = slotIdx h2
      · subst ht1
        rw [erase_slotAt_self hs_len2]
      · by_cases ht2 : s = slotIdx (st2.object_ids.getD (st2.num_objects - 1) 0)
        · subst ht2
          rw [erase_slotAt_moved hs2_len2 ht1]
        · rw [erase_slotAt_other ht1 ht2]
    refine ⟨Wf_erase hwf hc2, hmax, ?_, ?_⟩
    · rw [hidpres]
      exact hidb
    · intro hb0
      have hfree := hfr hb0
      by_cases ht1 : s = slotIdx h2
      · subst ht1
        rw [erase_slotAt_self hs_len2]
      · by_cases ht2 : s = slotIdx (st2.object_ids.getD (st2.num_objects - 1) 0)
        · exfalso
          rw [ht2] at hfree
          rw [hfree] at hs2idx
          have : tombstone = 65535 := rfl
          omega
        · rw [erase_slotAt_other ht1 ht2]
          exact hfree

end WrapMachinery

/-- Claim C5, counterexample.  On the full capacity-1 pool, handle
`0x10000` is valid; after `erase(0x10000)` the pool is the cycle-0 state
where `contains(0x10000)` is `false` — but `fullPool` itself, in which
`contains(0x10000)` is `true` again, is reachable from that state by
defined insert/erase steps (65535 reuse cycles followed by one more insert:
the 32-bit generation id of slot 0 wraps back to `0x10000`). -/
theorem erased_handle_revalidates_after_wrap :
    contains fullPool 65536 = some true ∧
    erase fullPool 65536 = cyc 0 ∧
    contains (cyc 0) 65536 = some false ∧
    Relation.ReflTransGen Step (cyc 0) fullPool := by
  refine ⟨by decide, by decide, by decide, ?_⟩
  have hins : insertOp (cyc 65535) () = some (⟨65536, 0, 1⟩, fullPool) := by
    rw [cyc_eq 65535,
      show (new_object_id_add * (65535 + 1)) % U32 = 0 from by
        norm_num [new_object_id_add, U32],
      insertOp_freeSlot 0]
    decide
  have s1 : Step (cyc 65535) fullPool :=
    Step.insertStep (by rw [cyc_eq 65535]; exact Nat.one_pos) hins
  exact Relation.ReflTransGen.tail (cyc_reach 65535) s1

/-- Claim C5, amended.  After `erase(h)` on a valid handle, `contains(h)`
is `false` immediately, and it stays `false` in every state reached by
defined insert/erase steps until the slot's generation wraps: whenever a
later state again satisfies `contains(h) = true`, the number of times the
slot was reused (popped by `insert_alloc`) is a positive multiple of 65536
— fewer than 65536 reuses can never revalidate an erased handle, and the
new occupant of each such reuse receives a different handle value. -/
theorem erased_handle_invalid_until_wrap [Inhabited α] {st : freelist_t α}
    {h : Nat} (hwf : Wf st) (hc : contains st h = some true) :
    contains (erase st h) h = some false ∧
    ∀ b st', StepsB (slotIdx h) (erase st h) b st' →
      contains st' h = some true → 65536 ∣ b ∧ 1 ≤ b := by
  obtain ⟨hsM, hid, hocc, hpn, hidsp⟩ := contains_true_wf hwf hc
  have hwfE := Wf_erase hwf hc
  have hsl : slotIdx h < st.indices.length := by rw [hwf.lenIndices]; omega
  have hsE : slotAt (erase st h) (slotIdx h) = ⟨h, tombstone, st.enqueue⟩ := by
    rw [erase_slotAt_self hsl, hid]
  have hEmax : (erase st h).max_objects = st.max_objects := rfl
  constructor
  · unfold contains
    rw [slotAt_getElem? (show slotIdx h < (erase st h).indices.length from by
      rw [erase_indices_len]; omega), hsE]
    simp
  · intro b st' hstep hcT
    have inv := stepsB_invariant hstep hwfE h (by rw [hEmax]; exact hsM)
      (by rw [hsE]) (by rw [hsE])
    obtain ⟨hwf', hmax', hid', hfr'⟩ := inv
    obtain ⟨hsl', hidT, hoccT⟩ := contains_some_true hcT
    have h32 : h < U32 := by rw [← hid]; exact (hwf.slotLow _ hsM).2
    rw [hid'] at hidT
    constructor
    · have hmod : (h + new_object_id_add * b) % U32 = h % U32 := by
        rw [hidT, Nat.mod_eq_of_lt h32]
      have hz : new_object_id_add * b ≡ 0 [MOD U32] :=
        Nat.ModEq.add_left_cancel' h hmod
      have hdvd : U32 ∣ new_object_id_add * b := (Nat.modEq_zero_iff_dvd).mp hz
      have hdvd' : (65536 * 65536 : Nat) ∣ 65536 * b := hdvd
      exact (mul_dvd_mul_iff_left (by norm_num : (65536 : Nat) ≠ 0)).mp hdvd'
    · rcases Nat.eq_zero_or_pos b with hb | hb
      · exfalso
        have := hfr' hb
        rw [this] at hoccT
        exact hoccT rfl
      · exact hb

/-- Witness for the amended C5 on the full capacity-1 pool and its valid
handle `0x10000`. -/
theorem erased_handle_invalid_witness :
    Wf fullPool ∧ contains fullPool 65536 = some true ∧
    contains (erase fullPool 65536) 65536 = some false :=
  ⟨Wf_fullPool, by decide,
    (erased_handle_invalid_until_wrap Wf_fullPool (by decide)).1⟩

/-- Claim C10, amended.  Free-slot reuse is LIFO: erasing a valid handle
and then inserting pops the same slot, whose new generation-tagged id — the
slot record's id, which is what `emplace` returns (`insert` instead returns
the stored value's own `id` member) — equals the slot's previous id (the
erased handle) plus `0x10000` mod `2^32`, with the low 16 bits unchanged. -/
theorem erase_then_emplace_reuses_slot [Inhabited α] {st : freelist_t α}
    {h : Nat} (v : α) (hc : contains st h = some true) :
    ∃ st1, emplace (erase st h) v = some ((h + new_object_id_add) % U32, st1) ∧
      slotIdx ((h + new_object_id_add) % U32) = slotIdx h := by
  obtain ⟨hsl, hid, hocc⟩ := contains_some_true hc
  have hsE : slotAt (erase st h) (slotIdx h) = ⟨h, tombstone, st.enqueue⟩ := by
    rw [erase_slotAt_self hsl, hid]
  have hlenE : (erase st h).indices.length = st.indices.length := erase_indices_len st h
  have hgE : (erase st h).indices[(erase st h).enqueue]? =
      some ⟨h, tombstone, st.enqueue⟩ := by
    show (erase st h).indices[slotIdx h]? = _
    rw [slotAt_getElem? (by omega), hsE]
  have hstep : emplace (erase st h) v =
      some ((h + new_object_id_add) % U32,
        { num_objects := (erase st h).num_objects + 1
          max_objects := (erase st h).max_objects
          objects := dwrite (erase st h).objects ((erase st h).num_objects % U16) v
          object_ids := dwrite (erase st h).object_ids ((erase st h).num_objects % U16)
            ((h + new_object_id_add) % U32)
          indices := (erase st h).indices.set (slotIdx h)
            ⟨(h + new_object_id_add) % U32, (erase st h).num_objects % U16, st.enqueue⟩
          enqueue := st.enqueue }) := by
    unfold emplace insertOp insert_alloc
    rw [hgE]
    rfl
  exact ⟨_, hstep, slotIdx_bump h⟩

/-- Witness for the amended C10: on the full capacity-1 pool, erasing
handle `0x10000` and then emplacing returns `0x20000`, reusing slot 0. -/
theorem erase_then_emplace_witness :
    contains fullPool 65536 = some true ∧
    (∃ st1, emplace (erase fullPool 65536) () =
        some ((65536 + new_object_id_add) % U32, st1) ∧
      slotIdx ((65536 + new_object_id_add) % U32) = slotIdx 65536) :=
  ⟨by decide, erase_then_emplace_reuses_slot () (by decide)⟩

end FreelistSpec
